import Mathlib

/-!
Verification development for the SAASS Scheduler repository
(`scheduler.py` and `app.py`).

The scheduler maintains a pairwise interaction ledger (an N×N integer
matrix), builds one mixed-integer assignment model per course session
(binary assignment variables `x[s][g]`, binary co-placement variables
`w[i][j][g]`, linearization constraints, group-size / category / hard-cap
constraints, a ledger-driven objective), submits it to an external solver,
extracts the groups, and folds them back into the ledger before the next
session.

This file shallowly embeds those data structures and operations and proves
the frozen claims about them.  Machine integers are modelled as `Nat`/`Int`
(no overflow is relevant here: all counts are small), matrices as functions
`Nat → Nat → Nat`, MIP variables as `Int`-valued functions with explicit
binariness hypotheses, and solver failure as `Option`/`Except` propagation
(a Python exception raised inside the solve call aborts everything after
it in the per-session body).
-/

/-- Interaction ledger: an N×N matrix of co-occurrence counts
(`interaction_matrix` in `scheduler.py`, a `numpy` int matrix). -/
abbrev Mat := Nat → Nat → Nat

/-- Values of the binary assignment variables `x[s, g]`. -/
abbrev XVar := Nat → Nat → Int

/-- Values of the binary co-placement variables `w[i, j, g]`. -/
abbrev WVar := Nat → Nat → Nat → Int

/-- The zero-filled initial ledger (`np.zeros((n, n))`). -/
def zeroMat : Mat := fun _ _ => 0

/-- `M[a, b] += 1` on a single entry. -/
def bump (M : Mat) (a b : Nat) : Mat :=
  fun p q => if p = a ∧ q = b then M p q + 1 else M p q

/-- The source's paired update `M[a, b] += 1; M[b, a] += 1`
(`scheduler.py` lines 116–117, `app.py` lines 184–185). -/
def bumpPair (M : Mat) (a b : Nat) : Mat :=
  bump (bump M a b) b a

/-- Ledger update for one group of one finished session
(`scheduler.py` lines 112–117): for every index pair `i < j` of the
group's member list, bump the pair of entries. -/
def recordGroup (M : Mat) : List Nat → Mat
  | [] => M
  | a :: rest => recordGroup (rest.foldl (fun acc b => bumpPair acc a b) M) rest

/-- Ledger update for a whole session (`scheduler.py` lines 111–117):
fold `recordGroup` over the per-group member lists. -/
def recordSession (M : Mat) (groups : List (List Nat)) : Mat :=
  groups.foldl recordGroup M

/-- Extraction of one group from a solved model (`scheduler.py`
lines 105–109): student `s` is in group `g` iff `value(x[s, g]) > 0.5`,
which for an integral binary value means `1 ≤ x s g`. -/
def extractGroup (n : Nat) (x : XVar) (g : Nat) : List Nat :=
  (List.range n).filter (fun s => decide (1 ≤ x s g))

/-- All `G` groups extracted from a solved model (`courseGroups`). -/
def extractAllGroups (n G : Nat) (x : XVar) : List (List Nat) :=
  (List.range G).map (extractGroup n x)

/-- Seeding from one historical pair of names (`app.py` lines 182–185):
look both names up in `name_to_index`; if either is missing the record is
skipped, otherwise both ledger entries are bumped. -/
def seedPair (nameIdx : String → Option Nat) (M : Mat) (sa sb : String) : Mat :=
  match nameIdx sa, nameIdx sb with
  | some a, some b => bumpPair M a b
  | _, _ => M

/-- Seeding from one historical group of names (`app.py` lines 179–185):
for every index pair `i < j` of the group's name list, `seedPair`. -/
def seedGroup (nameIdx : String → Option Nat) (M : Mat) : List String → Mat
  | [] => M
  | s :: rest => seedGroup nameIdx (rest.foldl (fun acc t => seedPair nameIdx acc s t) M) rest

/-- Seeding the ledger from all historical `(Course, Group)` member lists
(`app.py` lines 178–185). -/
def seedPrior (nameIdx : String → Option Nat) (M : Mat) (groups : List (List String)) : Mat :=
  groups.foldl (seedGroup nameIdx) M

/-- The messages the prior-grouping branch of `app.py` can surface
(lines 176–187): only the missing-columns error; the seed loop itself
emits nothing. -/
inductive PriorMsg where
  | colError : PriorMsg
deriving DecidableEq

/-- The prior-grouping CSV handling step of `app.py` (lines 173–187):
if the required columns are present, seed a fresh zero ledger from the
grouped records and surface no message; otherwise leave the ledger
zero-filled and surface the column error. -/
def priorSeedStep (hasCols : Bool) (nameIdx : String → Option Nat)
    (groups : List (List String)) : Mat × List PriorMsg :=
  if hasCols then (seedPrior nameIdx zeroMat groups, [])
  else (zeroMat, [PriorMsg.colError])

/-- `delta = (interaction_matrix == 0).astype(int)` (`scheduler.py` line 52). -/
def delta (M : Mat) (i j : Nat) : Nat :=
  if M i j = 0 then 1 else 0

/-- `penalize = (interaction_matrix >= penalty_threshold).astype(int)`
(`scheduler.py` line 53). -/
def penalize (M : Mat) (pt : Nat) (i j : Nat) : Nat :=
  if pt ≤ M i j then 1 else 0

/-- The per-pair, per-group objective coefficient of `w[i][j][g]`:
`delta[i, j] - penalty_weight * penalize[i, j]`. -/
def objCoeff (M : Mat) (pt : Nat) (pw : ℚ) (i j : Nat) : ℚ :=
  (delta M i j : ℚ) - pw * (penalize M pt i j : ℚ)

/-- The session objective (`objective_rule`, `scheduler.py` lines 62–66):
`sum over i < j, g of delta[i, j] * w[i, j, g] - penalty_weight * penalize[i, j] * w[i, j, g]`. -/
def objective (n G : Nat) (M : Mat) (pt : Nat) (pw : ℚ) (w : WVar) : ℚ :=
  ∑ i ∈ Finset.range n, ∑ j ∈ Finset.range n,
    if i < j then
      ∑ g ∈ Finset.range G,
        ((delta M i j : ℚ) * (w i j g : ℚ) - pw * (penalize M pt i j : ℚ) * (w i j g : ℚ))
    else 0

/-- A MIP variable value is binary: it is 0 or 1. -/
def IsBinary (v : Int) : Prop := v = 0 ∨ v = 1

instance (v : Int) : Decidable (IsBinary v) := by
  unfold IsBinary; infer_instance

/-- `assign_once` constraints (`scheduler.py` lines 69–71): every student
belongs to exactly one of the `G` groups. -/
def assignOnce (n G : Nat) (x : XVar) : Prop :=
  ∀ s < n, ∑ g ∈ Finset.range G, x s g = 1

/-- `group_size` constraints (`scheduler.py` lines 73–75): group `g` has
exactly `group_sizes[g]` members. -/
def groupSizeCon (n : Nat) (sizes : List Nat) (x : XVar) : Prop :=
  ∀ g < sizes.length, ∑ s ∈ Finset.range n, x s g = (sizes.getD g 0 : Int)

/-- `afsc_limit` constraints (`scheduler.py` lines 77–81): for every group
and every AFSC value present in the roster, at most `cap` students of that
AFSC are in the group (the batch scheduler hard-codes `cap = 2`). -/
def afscLimit (n G cap : Nat) (afsc : Nat → String) (x : XVar) : Prop :=
  ∀ g < G, ∀ c ∈ (Finset.range n).image afsc,
    ∑ s ∈ (Finset.range n).filter (fun s => afsc s = c), x s g ≤ (cap : Int)

/-- `lin_le` constraints (`scheduler.py` lines 85–90): for all students
`i`, `j` with `i < j`, `w[i, j, g] <= x[i, g]` and `w[i, j, g] <= x[j, g]`. -/
def linLe (n G : Nat) (x : XVar) (w : WVar) : Prop :=
  ∀ i < n, ∀ j < n, i < j → ∀ g < G, w i j g ≤ x i g ∧ w i j g ≤ x j g

/-- `lin_ge` constraints (`scheduler.py` lines 85–91): for all students
`i`, `j` with `i < j`, `w[i, j, g] >= x[i, g] + x[j, g] - 1`. -/
def linGe (n G : Nat) (x : XVar) (w : WVar) : Prop :=
  ∀ i < n, ∀ j < n, i < j → ∀ g < G, x i g + x j g - 1 ≤ w i j g

/-- `cap_limit` constraints (`scheduler.py` lines 93–98): for every pair
whose pre-session ledger count has reached `max_interaction`, force
`w[i, j, g] = 0` in every group. -/
def capLimit (n G maxInt : Nat) (M : Mat) (w : WVar) : Prop :=
  ∀ i < n, ∀ j < n, i < j → maxInt ≤ M i j → ∀ g < G, w i j g = 0

instance (n G : Nat) (x : XVar) : Decidable (assignOnce n G x) := by
  unfold assignOnce; infer_instance

instance (n : Nat) (sizes : List Nat) (x : XVar) : Decidable (groupSizeCon n sizes x) := by
  unfold groupSizeCon; infer_instance

instance (n G cap : Nat) (afsc : Nat → String) (x : XVar) :
    Decidable (afscLimit n G cap afsc x) := by
  unfold afscLimit; infer_instance

instance (n G : Nat) (x : XVar) (w : WVar) : Decidable (linLe n G x w) := by
  unfold linLe; infer_instance

instance (n G : Nat) (x : XVar) (w : WVar) : Decidable (linGe n G x w) := by
  unfold linGe; infer_instance

instance (n G maxInt : Nat) (M : Mat) (w : WVar) : Decidable (capLimit n G maxInt M w) := by
  unfold capLimit; infer_instance

/-- The complete hard-constraint set of one built session model
(`scheduler.py` lines 55–98), the contract a solver-accepted point
satisfies. -/
structure FeasibleSession (n G cap maxInt : Nat) (sizes : List Nat)
    (afsc : Nat → String) (M : Mat) (x : XVar) (w : WVar) : Prop where
  xbin : ∀ s < n, ∀ g < G, IsBinary (x s g)
  wbin : ∀ i < n, ∀ j < n, i < j → ∀ g < G, IsBinary (w i j g)
  once : assignOnce n G x
  size : groupSizeCon n sizes x
  cat : afscLimit n G cap afsc x
  lle : linLe n G x w
  lge : linGe n G x w
  capc : capLimit n G maxInt M w

/-- The record kept of one solved session: the course number and the
solved variable values. -/
abbrev SessionRec := Nat × XVar × WVar

/-- Accumulated records plus the current ledger. -/
abbrev RunState := List SessionRec × Mat

/-- The batch orchestrator loop of `run_scheduler` (`scheduler.py`
lines 51–117), one iteration per course: build the model for the current
ledger, submit it, and on success extract the groups and update the
ledger; a solver failure (a raised exception in the Python code) aborts
the rest of the loop body and every remaining course. -/
def runSessions (n G : Nat) (solve : Nat → Mat → Option (XVar × WVar)) :
    List Nat → Mat → List SessionRec → Except RunState RunState
  | [], M, recs => .ok (recs, M)
  | c :: rest, M, recs =>
    match solve c M with
    | none => .error (recs, M)
    | some (x, w) =>
        runSessions n G solve rest (recordSession M (extractAllGroups n G x))
          (recs ++ [(c, x, w)])

/-- The session records visible in a finished or halted run. -/
def runRecords : Except RunState RunState → List SessionRec
  | .ok (r, _) => r
  | .error (r, _) => r

/-- The ten hard-coded course numbers of the batch run
(`scheduler.py` line 33). -/
def courseNumbers : List Nat := [601, 600, 627, 632, 628, 633, 644, 667, 665, 660]

/-- `max_interaction = 4` (`scheduler.py` line 28). -/
def max_interaction : Nat := 4

/-- `penalty_threshold = 3` (`scheduler.py` line 29). -/
def penalty_threshold : Nat := 3

/-- `penalty_weight = 0.25` (`scheduler.py` line 30), an exactly
representable value. -/
def penalty_weight : ℚ := 1 / 4

/-- The whole batch run of `run_scheduler`: ten sessions over 4 groups,
starting from the zero ledger. -/
def runScheduler (n : Nat) (solve : Nat → Mat → Option (XVar × WVar)) :
    Except RunState RunState :=
  runSessions n 4 solve courseNumbers zeroMat []

/-- The internally computed batch group sizes (`scheduler.py`
lines 21–25): `base_size = n // 4`, `extra = n % 4`,
`[base + 1 if i < extra else base for i in range(4)]`. -/
def batchGroupSizes (numStudents : Nat) : List Nat :=
  (List.range 4).map fun i =>
    if i < numStudents % 4 then numStudents / 4 + 1 else numStudents / 4

/-- The outcomes of the run-button handler in `app.py` (lines 227–276). -/
inductive RunOutcome where
  | emailWarn : RunOutcome
  | rosterWarn : RunOutcome
  | noStudentsWarn : RunOutcome
  | sizeError : RunOutcome
  | runStarted : RunOutcome
deriving DecidableEq

/-- The guard chain of the run-button handler (`app.py` lines 227–241):
missing email, missing roster, empty roster, and group-size mismatch are
each rejected in turn; only the final `else` branch invokes the scheduler
(and hence constructs model variables). -/
def runButtonHandler (emailGiven rosterUploaded : Bool)
    (numStudents totalAssigned : Nat) : RunOutcome :=
  if !emailGiven then .emailWarn
  else if !rosterUploaded then .rosterWarn
  else if numStudents = 0 then .noStudentsWarn
  else if totalAssigned ≠ numStudents then .sizeError
  else .runStarted

/-- Ledger symmetry. -/
def SymmMat (M : Mat) : Prop := ∀ p q, M p q = M q p

/-- A two-student name index ("A" ↦ 0, "B" ↦ 1), used to evaluate the
theorems on concrete inputs. -/
def exIdx : String → Option Nat :=
  fun s => if s = "A" then some 0 else if s = "B" then some 1 else none

/-- Concrete all-ones assignment values (two students in one group). -/
def exX1 : XVar := fun _ _ => 1

/-- Concrete all-ones co-placement values. -/
def exW1 : WVar := fun _ _ _ => 1

/-- Concrete assignment placing student `s` in group `s`. -/
def exXid : XVar := fun s g => if s = g then 1 else 0

/-- Concrete all-zero co-placement values. -/
def exW0 : WVar := fun _ _ _ => 0

/-- Concrete two-category roster ("a" for student 0, "b" otherwise). -/
def exAfsc : Nat → String := fun s => if s = 0 then "a" else "b"

/-- Concrete symmetric ledger with `M 0 1 = M 1 0 = 3`. -/
def exM3 : Mat := fun p q => if (p = 0 ∧ q = 1) ∨ (p = 1 ∧ q = 0) then 3 else 0

/-- Concrete symmetric ledger with every off-diagonal count 1. -/
def exMone : Mat := fun p q => if p = q then 0 else 1

/-- A concrete solver oracle that solves course 0 and fails afterwards. -/
def exSolveA : Nat → Mat → Option (XVar × WVar) :=
  fun c _ => if c = 0 then some (exXid, exW0) else none

/-- A concrete solver oracle that always returns the same point. -/
def exSolveB : Nat → Mat → Option (XVar × WVar) :=
  fun _ _ => some (exXid, exW0)

/-! ## Ledger lemmas -/

theorem bumpPair_apply (M : Mat) (a b p q : Nat) :
    bumpPair M a b p q =
      M p q + (if p = a ∧ q = b then 1 else 0) + (if p = b ∧ q = a then 1 else 0) := by
  simp only [bumpPair, bump]
  split_ifs <;> omega

theorem bumpPair_symm {M : Mat} (hM : SymmMat M) (a b : Nat) : SymmMat (bumpPair M a b) := by
  intro p q
  rw [bumpPair_apply, bumpPair_apply, hM p q]
  split_ifs <;> omega

theorem bumpPair_le (M : Mat) (a b p q : Nat) : M p q ≤ bumpPair M a b p q := by
  rw [bumpPair_apply]
  split_ifs <;> omega

theorem foldl_bumpPair_le (a : Nat) (l : List Nat) :
    ∀ (M : Mat) (p q : Nat), M p q ≤ (l.foldl (fun acc b => bumpPair acc a b) M) p q := by
  induction l with
  | nil => intro M p q; exact le_refl _
  | cons b t ih => intro M p q; exact le_trans (bumpPair_le M a b p q) (ih _ p q)

theorem recordGroup_le (l : List Nat) :
    ∀ (M : Mat) (p q : Nat), M p q ≤ recordGroup M l p q := by
  induction l with
  | nil => intro M p q; exact le_refl _
  | cons a t ih => intro M p q; exact le_trans (foldl_bumpPair_le a t M p q) (ih _ p q)

theorem recordSession_le (groups : List (List Nat)) :
    ∀ (M : Mat) (p q : Nat), M p q ≤ recordSession M groups p q := by
  induction groups with
  | nil => intro M p q; exact le_refl _
  | cons l t ih => intro M p q; exact le_trans (recordGroup_le l M p q) (ih _ p q)

theorem foldl_bumpPair_symm (a : Nat) (l : List Nat) :
    ∀ {M : Mat}, SymmMat M → SymmMat (l.foldl (fun acc b => bumpPair acc a b) M) := by
  induction l with
  | nil => intro M h; exact h
  | cons b t ih => intro M h; exact ih (bumpPair_symm h a b)

theorem recordGroup_symm (l : List Nat) :
    ∀ {M : Mat}, SymmMat M → SymmMat (recordGroup M l) := by
  induction l with
  | nil => intro M h; exact h
  | cons a t ih => intro M h; exact ih (foldl_bumpPair_symm a t h)

theorem recordSession_symm (groups : List (List Nat)) :
    ∀ {M : Mat}, SymmMat M → SymmMat (recordSession M groups) := by
  induction groups with
  | nil => intro M h; exact h
  | cons l t ih => intro M h; exact ih (recordGroup_symm l h)

theorem seedPair_symm (nameIdx : String → Option Nat) (M : Mat) (sa sb : String)
    (hM : SymmMat M) : SymmMat (seedPair nameIdx M sa sb) := by
  unfold seedPair
  rcases nameIdx sa with _ | a <;> rcases nameIdx sb with _ | b
  · exact hM
  · exact hM
  · exact hM
  · exact bumpPair_symm hM a b

theorem foldl_seedPair_symm (nameIdx : String → Option Nat) (s : String) (l : List String) :
    ∀ {M : Mat}, SymmMat M → SymmMat (l.foldl (fun acc t => seedPair nameIdx acc s t) M) := by
  induction l with
  | nil => intro M h; exact h
  | cons t ts ih => intro M h; exact ih (seedPair_symm nameIdx M s t h)

theorem seedGroup_symm (nameIdx : String → Option Nat) (l : List String) :
    ∀ {M : Mat}, SymmMat M → SymmMat (seedGroup nameIdx M l) := by
  induction l with
  | nil => intro M h; exact h
  | cons s rest ih => intro M h; exact ih (foldl_seedPair_symm nameIdx s rest h)

theorem seedPrior_symm (nameIdx : String → Option Nat) (groups : List (List String)) :
    ∀ {M : Mat}, SymmMat M → SymmMat (seedPrior nameIdx M groups) := by
  induction groups with
  | nil => intro M h; exact h
  | cons l t ih => intro M h; exact ih (seedGroup_symm nameIdx l h)

/-- C5: the interaction ledger matrix is symmetric after initialization
(`np.zeros`), after seeding from any prior-grouping input (the seed loop
of `app.py`), and every per-session ledger update of `scheduler.py`
preserves symmetry. -/
theorem ledger_symmetry :
    SymmMat zeroMat ∧
    (∀ (nameIdx : String → Option Nat) (groups : List (List String)),
      SymmMat (seedPrior nameIdx zeroMat groups)) ∧
    (∀ (M : Mat) (groups : List (List Nat)), SymmMat M → SymmMat (recordSession M groups)) := by
  refine ⟨fun p q => rfl, ?_, ?_⟩
  · intro nameIdx groups
    exact seedPrior_symm nameIdx groups (fun p q => rfl)
  · intro M groups hM
    exact recordSession_symm groups hM

theorem ledger_symmetry_witness :
    SymmMat (recordSession zeroMat [[0, 1, 2]]) ∧
    SymmMat (seedPrior exIdx zeroMat [["A", "B"]]) :=
  ⟨ledger_symmetry.2.2 zeroMat [[0, 1, 2]] (fun _ _ => rfl),
   ledger_symmetry.2.1 exIdx [["A", "B"]]⟩

/-! ## Seeding skip lemmas -/

theorem seedPair_left_none (nameIdx : String → Option Nat) (M : Mat) {sa : String}
    (h : nameIdx sa = none) (sb : String) : seedPair nameIdx M sa sb = M := by
  unfold seedPair
  rw [h]

theorem seedPair_right_none (nameIdx : String → Option Nat) (M : Mat) (sa : String)
    {sb : String} (h : nameIdx sb = none) : seedPair nameIdx M sa sb = M := by
  unfold seedPair
  rw [h]
  rcases nameIdx sa with _ | a <;> rfl

theorem foldl_seedPair_left_none (nameIdx : String → Option Nat) {s : String}
    (h : nameIdx s = none) (l : List String) :
    ∀ M : Mat, l.foldl (fun acc t => seedPair nameIdx acc s t) M = M := by
  induction l with
  | nil => intro M; rfl
  | cons t ts ih =>
      intro M
      simp only [List.foldl_cons]
      rw [seedPair_left_none nameIdx M h t]
      exact ih M

theorem foldl_seedPair_filter (nameIdx : String → Option Nat) (s : String) (l : List String) :
    ∀ M : Mat, l.foldl (fun acc t => seedPair nameIdx acc s t) M =
      (l.filter fun t => (nameIdx t).isSome).foldl (fun acc t => seedPair nameIdx acc s t) M := by
  induction l with
  | nil => intro M; rfl
  | cons t ts ih =>
      intro M
      by_cases h : (nameIdx t).isSome
      · simp only [List.filter_cons, h, if_true, List.foldl_cons]
        exact ih _
      · have hn : nameIdx t = none := Option.not_isSome_iff_eq_none.mp h
        simp only [List.filter_cons, h, if_false, List.foldl_cons]
        rw [seedPair_right_none nameIdx M s hn]
        exact ih M

theorem seedGroup_filter (nameIdx : String → Option Nat) (l : List String) :
    ∀ M : Mat, seedGroup nameIdx M l =
      seedGroup nameIdx M (l.filter fun s => (nameIdx s).isSome) := by
  induction l with
  | nil => intro M; rfl
  | cons s rest ih =>
      intro M
      by_cases h : (nameIdx s).isSome
      · simp only [List.filter_cons, h, if_true]
        show seedGroup nameIdx (rest.foldl (fun acc t => seedPair nameIdx acc s t) M) rest =
          seedGroup nameIdx
            ((rest.filter fun t => (nameIdx t).isSome).foldl
              (fun acc t => seedPair nameIdx acc s t) M)
            (rest.filter fun t => (nameIdx t).isSome)
        rw [← foldl_seedPair_filter nameIdx s rest M]
        exact ih _
      · have hn : nameIdx s = none := Option.not_isSome_iff_eq_none.mp h
        simp only [List.filter_cons, h, if_false]
        show seedGroup nameIdx (rest.foldl (fun acc t => seedPair nameIdx acc s t) M) rest =
          seedGroup nameIdx M (rest.filter fun t => (nameIdx t).isSome)
        rw [foldl_seedPair_left_none nameIdx hn rest M]
        exact ih M

/-- C9 counterexample: the claim asserts that a warning is surfaced for
each historical record whose name is absent from the roster.  On the
concrete input below, the record pairing "A" with the unknown name "G" is
dropped (its pair link contributes nothing: entry (0,1) stays 0, while the
same input with known name "B" does bump it), yet the message list of the
prior-grouping step is empty — no warning is surfaced. -/
theorem seed_no_warning_counterexample :
    exIdx "G" = none ∧
    (priorSeedStep true exIdx [["A", "G"]]).2 = [] ∧
    (priorSeedStep true exIdx [["A", "G"]]).1 0 1 = 0 ∧
    (priorSeedStep true exIdx [["A", "B"]]).1 0 1 = 1 := by
  refine ⟨rfl, rfl, rfl, rfl⟩

/-- C9 (amended): records referencing a student name absent from the
roster are skipped silently — their pair links contribute nothing to the
ledger (seeding a group is unchanged by removing its unknown names), no
per-record warning is surfaced by the seed loop, and seeding continues
without failing, producing the seeded matrix. -/
theorem seed_skips_unknown_silently (nameIdx : String → Option Nat)
    (groups : List (List String)) (M : Mat) (l : List String) :
    (priorSeedStep true nameIdx groups).2 = [] ∧
    seedGroup nameIdx M l = seedGroup nameIdx M (l.filter fun s => (nameIdx s).isSome) ∧
    priorSeedStep true nameIdx groups = (seedPrior nameIdx zeroMat groups, []) := by
  refine ⟨rfl, seedGroup_filter nameIdx l M, rfl⟩

/-! ## Counting lemma: a sum of binary variables is a cardinality -/

theorem sum_binary_eq_card (s : Finset Nat) (f : Nat → Int)
    (hf : ∀ i ∈ s, IsBinary (f i)) :
    ∑ i ∈ s, f i = ((s.filter (fun i => f i = 1)).card : Int) := by
  rw [← Finset.sum_boole]
  refine Finset.sum_congr rfl fun i hi => ?_
  rcases hf i hi with h | h <;> simp [h]

/-- C6: any point accepted from a solved session — i.e. any binary
assignment satisfying the `assign_once` and `group_size` constraints of
the built model — is an exact partition of the roster: every student is
in exactly one group, and every group's membership count equals its
configured size exactly. -/
theorem assignment_exact_partition (n : Nat) (sizes : List Nat) (x : XVar)
    (hx : ∀ s < n, ∀ g < sizes.length, IsBinary (x s g))
    (h1 : assignOnce n sizes.length x) (h2 : groupSizeCon n sizes x) :
    (∀ s < n, ((Finset.range sizes.length).filter (fun g => x s g = 1)).card = 1) ∧
    (∀ g < sizes.length, ((Finset.range n).filter (fun s => x s g = 1)).card = sizes.getD g 0) := by
  constructor
  · intro s hs
    have hb : ∀ g ∈ Finset.range sizes.length, IsBinary (x s g) :=
      fun g hg => hx s hs g (Finset.mem_range.mp hg)
    have hc := sum_binary_eq_card (Finset.range sizes.length) (fun g => x s g) hb
    have h := h1 s hs
    rw [hc] at h
    exact_mod_cast h
  · intro g hg
    have hb : ∀ s ∈ Finset.range n, IsBinary (x s g) :=
      fun s hs => hx s (Finset.mem_range.mp hs) g hg
    have hc := sum_binary_eq_card (Finset.range n) (fun s => x s g) hb
    have h := h2 g hg
    rw [hc] at h
    exact_mod_cast h

theorem assignment_exact_partition_witness :
    ((Finset.range 2).filter (fun g => exXid 0 g = 1)).card = 1 ∧
    ((Finset.range 2).filter (fun s => exXid s 0 = 1)).card = [1, 1].getD 0 0 :=
  ⟨(assignment_exact_partition 2 [1, 1] exXid (by decide) (by decide) (by decide)).1
      0 (by decide),
   (assignment_exact_partition 2 [1, 1] exXid (by decide) (by decide) (by decide)).2
      0 (by decide)⟩

/-- C7: in any binary point satisfying the `afsc_limit` constraints of a
built session model, for every group and every category value present in
the roster, the number of students of that category placed in that group
is at most the category cap. -/
theorem category_cap_respected (n G cap : Nat) (afsc : Nat → String) (x : XVar)
    (hx : ∀ s < n, ∀ g < G, IsBinary (x s g)) (hcat : afscLimit n G cap afsc x) :
    ∀ g < G, ∀ c ∈ (Finset.range n).image afsc,
      ((Finset.range n).filter (fun s => afsc s = c ∧ x s g = 1)).card ≤ cap := by
  intro g hg c hc
  have h := hcat g hg c hc
  have hb : ∀ s ∈ (Finset.range n).filter (fun s => afsc s = c), IsBinary (x s g) :=
    fun s hs => hx s (Finset.mem_range.mp (Finset.mem_filter.mp hs).1) g hg
  have hcard := sum_binary_eq_card ((Finset.range n).filter (fun s => afsc s = c))
    (fun s => x s g) hb
  rw [hcard, Finset.filter_filter] at h
  exact_mod_cast h

theorem category_cap_respected_witness :
    ((Finset.range 2).filter (fun s => exAfsc s = "a" ∧ exXid s 0 = 1)).card ≤ 2 :=
  category_cap_respected 2 2 2 exAfsc exXid (by decide) (by decide) 0 (by decide)
    "a" (by decide)

/-- C4: for every binary point satisfying the three linearization
inequalities `lin_le` and `lin_ge` of a built model, the co-placement
variable `w[i][j][g]` equals the logical AND of `x[i][g]` and `x[j][g]`
exactly — no tolerance or rounding is involved. -/
theorem linearization_exact (n G : Nat) (x : XVar) (w : WVar)
    (hx : ∀ s < n, ∀ g < G, IsBinary (x s g))
    (hw : ∀ i < n, ∀ j < n, i < j → ∀ g < G, IsBinary (w i j g))
    (hle : linLe n G x w) (hge : linGe n G x w) :
    ∀ i < n, ∀ j < n, i < j → ∀ g < G, (w i j g = 1 ↔ x i g = 1 ∧ x j g = 1) := by
  intro i hi j hj hij g hg
  have hxi := hx i hi g hg
  have hxj := hx j hj g hg
  have hwb := hw i hi j hj hij g hg
  have h1 := (hle i hi j hj hij g hg).1
  have h2 := (hle i hi j hj hij g hg).2
  have h3 := hge i hi j hj hij g hg
  unfold IsBinary at hxi hxj hwb
  constructor <;> intro h <;> omega

theorem linearization_exact_witness :
    exW1 0 1 0 = 1 ↔ exX1 0 0 = 1 ∧ exX1 1 0 = 1 :=
  linearization_exact 2 1 exX1 exW1 (by decide) (by decide) (by decide) (by decide)
    0 (by decide) 1 (by decide) (by decide) 0 (by decide)

/-- C3: in the objective of every built session model, the coefficient of
`w[i][j][g]` (for `i < j` and any group) is `delta[i,j] - penalty_weight *
penalize[i,j]`; with a positive penalty threshold this is `+1` when the
pre-session ledger count is 0, `-penalty_weight` when the count is at or
above the threshold, and `0` strictly in between. -/
theorem objective_coefficient_cases (n G : Nat) (M : Mat) (pt : Nat) (pw : ℚ) (w : WVar)
    (i j : Nat) (hpt : 0 < pt) :
    objective n G M pt pw w =
      (∑ a ∈ Finset.range n, ∑ b ∈ Finset.range n,
        if a < b then ∑ g ∈ Finset.range G, objCoeff M pt pw a b * (w a b g : ℚ) else 0) ∧
    (M i j = 0 → objCoeff M pt pw i j = 1) ∧
    (pt ≤ M i j → objCoeff M pt pw i j = -pw) ∧
    (0 < M i j → M i j < pt → objCoeff M pt pw i j = 0) := by
  refine ⟨?_, ?_, ?_, ?_⟩
  · unfold objective objCoeff
    refine Finset.sum_congr rfl fun a _ => ?_
    refine Finset.sum_congr rfl fun b _ => ?_
    split
    · exact Finset.sum_congr rfl fun g _ => by ring
    · rfl
  · intro h
    have hnz : pt ≠ 0 := by omega
    simp [objCoeff, delta, penalize, h, hnz]
  · intro h
    have hnz : ¬ M i j = 0 := by omega
    simp [objCoeff, delta, penalize, h, hnz]
  · intro h1 h2
    have hnz : ¬ M i j = 0 := by omega
    have hnp : ¬ pt ≤ M i j := by omega
    simp [objCoeff, delta, penalize, hnz, hnp]

theorem objective_coefficient_cases_witness :
    objCoeff exM3 penalty_threshold penalty_weight 0 1 = -penalty_weight :=
  (objective_coefficient_cases 2 4 exM3 penalty_threshold penalty_weight exW0 0 1
    (by decide)).2.2.1 (by decide)

/-- C8: whenever the supplied group sizes do not sum to the roster size,
the run-button handler of `app.py` never reaches the branch that invokes
the scheduler (so no model variables are constructed); and when the size
mismatch is the only problem (email given, roster loaded, students
present) the outcome is exactly the configuration error message. -/
theorem size_mismatch_rejected (emailGiven rosterUploaded : Bool) (ns ta : Nat)
    (h : ta ≠ ns) :
    runButtonHandler emailGiven rosterUploaded ns ta ≠ RunOutcome.runStarted ∧
    (emailGiven = true → rosterUploaded = true → ns ≠ 0 →
      runButtonHandler emailGiven rosterUploaded ns ta = RunOutcome.sizeError) := by
  constructor
  · unfold runButtonHandler
    split_ifs <;> simp_all
  · intro he hr hn
    subst he; subst hr
    simp [runButtonHandler, hn, h]

theorem size_mismatch_rejected_witness :
    runButtonHandler true true 12 11 ≠ RunOutcome.runStarted ∧
    (true = true → true = true → 12 ≠ 0 →
      runButtonHandler true true 12 11 = RunOutcome.sizeError) :=
  size_mismatch_rejected true true 12 11 (by decide)

/-- C10: in batch mode the internally computed group sizes form exactly 4
groups, always sum to the roster size, and any two of them differ by at
most one — so `sum(group_sizes) == N` holds by construction. -/
theorem batch_group_sizes_partition (N : Nat) :
    (batchGroupSizes N).length = 4 ∧
    (batchGroupSizes N).sum = N ∧
    ∀ a ∈ batchGroupSizes N, ∀ b ∈ batchGroupSizes N, a ≤ b + 1 := by
  have hmem : ∀ a ∈ batchGroupSizes N, N / 4 ≤ a ∧ a ≤ N / 4 + 1 := by
    intro a ha
    simp only [batchGroupSizes, List.mem_map, List.mem_range] at ha
    obtain ⟨i, _, rfl⟩ := ha
    split_ifs <;> omega
  refine ⟨by simp [batchGroupSizes], ?_, ?_⟩
  · have h4 : (List.range 4) = [0, 1, 2, 3] := rfl
    simp only [batchGroupSizes, h4, List.map_cons, List.map_nil, List.sum_cons,
      List.sum_nil]
    split_ifs <;> omega
  · intro a ha b hb
    have h1 := hmem a ha
    have h2 := hmem b hb
    omega

/-! ## Orchestrator lemmas -/

theorem runSessions_append (n G : Nat) (solve : Nat → Mat → Option (XVar × WVar)) :
    ∀ (l₁ l₂ : List Nat) (M : Mat) (recs : List SessionRec),
      runSessions n G solve (l₁ ++ l₂) M recs =
        match runSessions n G solve l₁ M recs with
        | .ok (r, M') => runSessions n G solve l₂ M' r
        | .error e => .error e := by
  intro l₁
  induction l₁ with
  | nil => intro l₂ M recs; rfl
  | cons c t ih =>
      intro l₂ M recs
      show runSessions n G solve (c :: (t ++ l₂)) M recs = _
      simp only [runSessions]
      rcases solve c M with _ | ⟨x, w⟩
      · rfl
      · exact ih l₂ _ _

/-- C1: if the solver fails (`Infeasible`/`Failure`, a raised exception in
the Python code) at some session of the run, the whole run halts with a
failure outcome: the failed session contributes no assignment record (no
partial or fabricated assignment is extracted), the ledger visible at the
failure is exactly the pre-session ledger (no `LEDGER_UPDATE` for the
failed session), and no later session is processed. -/
theorem run_halts_on_solver_failure (n G : Nat) (solve : Nat → Mat → Option (XVar × WVar))
    (done rest : List Nat) (c : Nat) (M₀ M : Mat) (recs : List SessionRec)
    (hpre : runSessions n G solve done M₀ [] = .ok (recs, M))
    (hfail : solve c M = none) :
    runSessions n G solve (done ++ c :: rest) M₀ [] = .error (recs, M) := by
  rw [runSessions_append n G solve done (c :: rest) M₀ [], hpre]
  show runSessions n G solve (c :: rest) M recs = .error (recs, M)
  simp only [runSessions, hfail]

theorem run_halts_on_solver_failure_witness :
    runSessions 2 2 exSolveA ([0] ++ 1 :: [2]) zeroMat [] =
      .error ([(0, exXid, exW0)], recordSession zeroMat (extractAllGroups 2 2 exXid)) :=
  run_halts_on_solver_failure 2 2 exSolveA [0] [2] 1 zeroMat
    (recordSession zeroMat (extractAllGroups 2 2 exXid)) [(0, exXid, exW0)] rfl rfl

theorem capped_pair_aux (n G cap maxInt : Nat) (sizes : List Nat) (afsc : Nat → String)
    (solve : Nat → Mat → Option (XVar × WVar))
    (hfeas : ∀ c M x w, solve c M = some (x, w) →
      FeasibleSession n G cap maxInt sizes afsc M x w)
    (i j : Nat) (hi : i < n) (hj : j < n) (hij : i < j) :
    ∀ (cs : List Nat) (M : Mat) (recs : List SessionRec), maxInt ≤ M i j →
      ∀ c x w, (c, x, w) ∈ runRecords (runSessions n G solve cs M recs) →
        (c, x, w) ∈ recs ∨ ∀ g < G, w i j g = 0 ∧ ¬(x i g = 1 ∧ x j g = 1) := by
  intro cs
  induction cs with
  | nil => intro M recs hM c x w hmem; exact Or.inl hmem
  | cons c' t ih =>
      intro M recs hM c x w hmem
      rcases hs : solve c' M with _ | ⟨x', w'⟩
      · simp only [runSessions, hs, runRecords] at hmem
        exact Or.inl hmem
      · simp only [runSessions, hs] at hmem
        have hM' : maxInt ≤ recordSession M (extractAllGroups n G x') i j :=
          le_trans hM (recordSession_le (extractAllGroups n G x') M i j)
        rcases ih _ _ hM' c x w hmem with hrec | hdone
        · rcases List.mem_append.mp hrec with hold | hnew
          · exact Or.inl hold
          · have heq : (c, x, w) = (c', x', w') := List.mem_singleton.mp hnew
            have hc : x = x' ∧ w = w' := by
              refine ⟨congrArg (fun p => p.2.1) heq, congrArg (fun p => p.2.2) heq⟩
            obtain ⟨hx, hw⟩ := hc
            subst hx; subst hw
            have hf := hfeas c' M x w hs
            refine Or.inr fun g hg => ?_
            have hzero := hf.capc i hi j hj hij hM g hg
            refine ⟨hzero, fun hboth => ?_⟩
            have hge := hf.lge i hi j hj hij g hg
            rw [hboth.1, hboth.2, hzero] at hge
            omega
        · exact Or.inr hdone

/-- C2: once a pair's ledger count has reached `max_interaction` before a
session is built, the `cap_limit` constraints of that session and of every
later session of the run (the ledger never decreases) force
`w[i][j][g] = 0` for every group, and together with the `lin_ge`
linearization constraints forbid any solver-accepted assignment from
placing the two students in the same group again. -/
theorem capped_pair_never_regrouped (n G cap maxInt : Nat) (sizes : List Nat)
    (afsc : Nat → String) (solve : Nat → Mat → Option (XVar × WVar))
    (hfeas : ∀ c M x w, solve c M = some (x, w) →
      FeasibleSession n G cap maxInt sizes afsc M x w)
    (i j : Nat) (hi : i < n) (hj : j < n) (hij : i < j)
    (M₀ : Mat) (hcap : maxInt ≤ M₀ i j) (cs : List Nat) (c : Nat) (x : XVar) (w : WVar)
    (hmem : (c, x, w) ∈ runRecords (runSessions n G solve cs M₀ [])) :
    ∀ g < G, w i j g = 0 ∧ ¬(x i g = 1 ∧ x j g = 1) := by
  rcases capped_pair_aux n G cap maxInt sizes afsc solve hfeas i j hi hj hij
      cs M₀ [] hcap c x w hmem with h | h
  · exact absurd h (List.not_mem_nil _)
  · exact h

theorem exSolveB_feasible : ∀ (c : Nat) (M : Mat) (x : XVar) (w : WVar),
    exSolveB c M = some (x, w) → FeasibleSession 2 2 2 1 [1, 1] exAfsc M x w := by
  intro c M x w h
  have heq : (exXid, exW0) = (x, w) := Option.some.inj h
  have hx : exXid = x := congrArg Prod.fst heq
  have hw : exW0 = w := congrArg Prod.snd heq
  subst hx; subst hw
  refine ⟨by decide, by decide, by decide, by decide, by decide, by decide, by decide, ?_⟩
  intro a _ b _ _ _ g _
  rfl

theorem capped_pair_never_regrouped_witness :
    exW0 0 1 0 = 0 ∧ ¬(exXid 0 0 = 1 ∧ exXid 1 0 = 1) :=
  capped_pair_never_regrouped 2 2 2 1 [1, 1] exAfsc exSolveB exSolveB_feasible
    0 1 (by decide) (by decide) (by decide) exMone (by decide) [5] 5 exXid exW0
    (List.mem_singleton.mpr rfl) 0 (by decide)
